import Mathlib

set_option synthInstance.maxSize 2048
set_option maxRecDepth 4096

/-!
Verification of the step-registry subsystem (`src/step/collection.rs`) of a
behavior-driven test engine.  The registry stores `(regex pattern, source
location) -> handler` entries in three buckets keyed by step kind
(Given / When / Then), supports builder-style insertion (`given`, `when`,
`then`), right-biased `merge`, `compose`, and resolution of a step's text to a
handler via `find`.

Matching is performed with the Rust `regex` crate's `Regex::captures_read`,
i.e. a leftmost, unanchored search with capture extraction, using
leftmost-first (backtracking-preference) semantics.  We embed the relevant
regex fragment as an AST together with a fuel-indexed CPS backtracking
matcher reproducing those semantics: alternation prefers its left branch,
repetition is greedy, the search tries start offsets left to right, and each
capture group records the span of its last successful iteration.

Strings are embedded as `List Char` (`Str`).
-/

/-- Strings of the embedded programs: Rust `&str` contents as a list of
characters. -/
abbrev Str : Type := List Char

/-- Abstract syntax of the regular-expression fragment used by the
repository's step patterns: literal characters, character classes (possibly
negated, given by inclusive ranges, covering classes such as `[^"]`, `\d`,
`\w`), concatenation, alternation, greedy `*` and `+` repetition, and
(optionally named) capture groups. -/
inductive RE : Type where
  | eps : RE
  | char (c : Char) : RE
  | cls (neg : Bool) (ranges : List (Char × Char)) : RE
  | seq (a b : RE) : RE
  | alt (a b : RE) : RE
  | star (a : RE) : RE
  | plus (a : RE) : RE
  | group (a : RE) : RE
  | ngroup (name : Str) (a : RE) : RE
deriving DecidableEq, Repr

/-- Greedy optional (`r?`), desugared to an alternation preferring `r`. -/
def RE.opt (a : RE) : RE := RE.alt a RE.eps

/-- Number of capture groups of a regex (group 0, the implicit whole match,
not counted), as reported by `Regex::captures_len() - 1`. -/
def numGroups : RE → Nat
  | .eps => 0
  | .char _ => 0
  | .cls _ _ => 0
  | .seq a b => numGroups a + numGroups b
  | .alt a b => numGroups a + numGroups b
  | .star a => numGroups a
  | .plus a => numGroups a
  | .group a => numGroups a + 1
  | .ngroup _ a => numGroups a + 1

/-- Optional names of the capture groups 1, 2, …, in increasing index order
(Rust numbers groups by the position of their opening parenthesis). -/
def groupNames : RE → List (Option Str)
  | .eps => []
  | .char _ => []
  | .cls _ _ => []
  | .seq a b => groupNames a ++ groupNames b
  | .alt a b => groupNames a ++ groupNames b
  | .star a => groupNames a
  | .plus a => groupNames a
  | .group a => none :: groupNames a
  | .ngroup nm a => some nm :: groupNames a

/-- Names of all capture groups including the unnamed implicit group 0, as
produced by `Regex::capture_names()`. -/
def captureNames (r : RE) : List (Option Str) := none :: groupNames r

/-- Size of a regex AST, used to compute a sufficient fuel bound for the
matcher. -/
def sizeRE : RE → Nat
  | .eps => 1
  | .char _ => 1
  | .cls _ _ => 1
  | .seq a b => sizeRE a + sizeRE b + 1
  | .alt a b => sizeRE a + sizeRE b + 1
  | .star a => sizeRE a + 1
  | .plus a => sizeRE a + 1
  | .group a => sizeRE a + 1
  | .ngroup _ a => sizeRE a + 1

/-- Membership of a character in a (possibly negated) class given by
inclusive ranges. -/
def clsMem (neg : Bool) (ranges : List (Char × Char)) (c : Char) : Bool :=
  let inR := ranges.any (fun p => decide (p.1 ≤ c) && decide (c ≤ p.2))
  if neg then !inR else inR

/-- Capture environment: group index mapped to the span (start, end) of its
most recent successful match; earlier bindings are shadowed by prepending. -/
abbrev Groups : Type := List (Nat × (Nat × Nat))

/-- Span recorded for a group index, if the group participated in the
match. -/
def glookup (g : Groups) (n : Nat) : Option (Nat × Nat) :=
  (g.find? (fun p => decide (p.1 = n))).map Prod.snd

/-- Fuel-indexed CPS backtracking matcher with leftmost-first semantics,
mirroring the preference order of `regex::Regex`: alternation tries the left
branch first, `*` and `+` are greedy, a `*` iteration that consumes nothing
stops the loop, and a capture group records the span of its last iteration.
Arguments: fuel, regex, subject, index of the regex's first capture group,
current position, capture environment, continuation receiving the position
and environment after this regex.  The result is the first success of the
whole continuation chain, which is exactly the backtracking preference
order. -/
def mtch : Nat → RE → Str → Nat → Nat → Groups →
    (Nat → Groups → Option (Nat × Groups)) → Option (Nat × Groups)
  | 0, _, _, _, _, _, _ => none
  | Nat.succ fuel, r, s, gi, i, g, k =>
    match r with
    | .eps => k i g
    | .char c =>
      match s[i]? with
      | some c2 => if c2 = c then k (i + 1) g else none
      | none => none
    | .cls neg ranges =>
      match s[i]? with
      | some c2 => if clsMem neg ranges c2 then k (i + 1) g else none
      | none => none
    | .seq a b =>
      mtch fuel a s gi i g (fun j g2 => mtch fuel b s (gi + numGroups a) j g2 k)
    | .alt a b =>
      match mtch fuel a s gi i g k with
      | some res => some res
      | none => mtch fuel b s (gi + numGroups a) i g k
    | .star a =>
      match mtch fuel a s gi i g
          (fun j g2 => if i < j then mtch fuel (.star a) s gi j g2 k else k j g2) with
      | some res => some res
      | none => k i g
    | .plus a =>
      mtch fuel a s gi i g (fun j g2 => mtch fuel (.star a) s gi j g2 k)
    | .group a =>
      mtch fuel a s (gi + 1) i g (fun j g2 => k j ((gi, (i, j)) :: g2))
    | .ngroup _ a =>
      mtch fuel a s (gi + 1) i g (fun j g2 => k j ((gi, (i, j)) :: g2))

/-- Fuel sufficient for `mtch` on the given regex and subject: the matcher's
call depth is bounded by the AST size plus one unit per repetition step, and
every repetition step consumes at least one character. -/
def mtchFuel (r : RE) (s : Str) : Nat := sizeRE r + 2 * s.length + 8

/-- Anchored match attempt at one fixed start position, returning the end
position and capture environment of the preferred match. -/
def matchAt (r : RE) (s : Str) (i : Nat) : Option (Nat × Groups) :=
  mtch (mtchFuel r s) r s 1 i [] (fun j g => some (j, g))

/-- Leftmost search: try each start offset from `i` upward (at most
`fuel` offsets) and keep the first position where the regex matches,
mirroring the unanchored search of `Regex::captures_read`. -/
def searchFrom : Nat → RE → Str → Nat → Option ((Nat × Nat) × Groups)
  | 0, _, _, _ => none
  | Nat.succ fuel, r, s, i =>
    match matchAt r s i with
    | some (j, g) => some ((i, j), g)
    | none => if i < s.length then searchFrom fuel r s (i + 1) else none

/-- Embedding of `Regex::captures_read` over the populated
`CaptureLocations`: on success, the whole-match span together with the list
of group spans (index 0 the whole match, then one entry per capture group,
`none` for a group that did not participate). -/
def capturesRead (r : RE) (s : Str) :
    Option ((Nat × Nat) × List (Option (Nat × Nat))) :=
  match searchFrom (s.length + 1) r s 0 with
  | some (span, g) =>
    some (span, some span :: (List.range (numGroups r)).map (fun n => glookup g (n + 1)))
  | none => none

/-- Whether the whole subject satisfies the regex, i.e. some alternative of
the backtracking search consumes the subject exactly.  This is language
membership for the embedded fragment; the spec's "full match" notion. -/
def fullMatch (r : RE) (s : Str) : Bool :=
  (mtch (mtchFuel r s) r s 1 0 []
    (fun j g => if j = s.length then some (j, g) else none)).isSome

/-- Literal regex matching a fixed character sequence. -/
def str2re : Str → RE
  | [] => .eps
  | c :: cs => .seq (.char c) (str2re cs)

example : capturesRead (str2re "ab".data) "xabz".data =
    some ((1, 3), [some (1, 3)]) := by decide

example : capturesRead (.char 'b') "ab".data = some ((1, 2), [some (1, 2)]) := by
  decide

example : fullMatch (.char 'b') "ab".data = false := by decide

example :
    capturesRead (.seq (.char 'a') (RE.opt (.group (.char 'b')))) "a".data =
      some ((0, 1), [some (0, 1), none]) := by decide

/-- Modelled from the spec: `step/location.rs` is not under `src/`; the spec
describes a pattern's identity as "(pattern text, location)" with "an
optional source location".  A location is modelled as a (line, column)
source position. -/
structure Location : Type where
  line : Nat
  col : Nat
deriving DecidableEq, Repr

/-- A stored pattern: the compiled regex together with its source text.
`HashableRegex` (in `step/regex.rs`, absent from `src/`) wraps
`regex::Regex`, whose source text is the identity used for hashing,
equality and ordering; the spec: "identity key = (pattern text,
location)". -/
structure Pattern : Type where
  text : Str
  ast : RE
deriving DecidableEq, Repr

/-- Step kinds of `gherkin::StepType` (the `thn` constructor embeds `Then`,
a reserved word). -/
inductive StepType : Type where
  | given : StepType
  | when : StepType
  | thn : StepType
deriving DecidableEq, Repr

/-- The fields of a `gherkin::Step` read by the registry: its keyword text,
its kind and its text (`value`). -/
structure GStep : Type where
  keyword : Str
  ty : StepType
  value : Str
deriving DecidableEq, Repr

/-- Modelled from the spec: `step/context.rs` is not under `src/`.  The
`Context` handed to a handler carries "the literal step text, its keyword,
and an ordered list of (optional capture-group name, captured substring)
pairs" — the step object itself plus the `matches` list built by
`Collection::find`. -/
structure Context : Type where
  step : GStep
  matchesL : List (Option Str × Str)
deriving DecidableEq, Repr

/-- Modelled from the spec: `step/error.rs` is not under `src/`.  An
`AmbiguousMatchError` carries "every (pattern, location) that matched,
sorted by a deterministic total order". -/
structure AmbiguousMatchError : Type where
  possible_matches : List (Pattern × Option Location)
deriving DecidableEq, Repr

/-- One bucket entry: the `((HashableRegex, Option<Location>), Step)` pair
of the `HashMap`s inside `Collection`. -/
abbrev Entry (H : Type) : Type := (Pattern × Option Location) × H

/-- A bucket: the entries of one of the three `HashMap`s, in some iteration
order. -/
abbrev Bucket (H : Type) : Type := List (Entry H)

/-- The `HashMap` key of an entry: the pattern's source text and its
location. -/
def keyOf {H : Type} (e : Entry H) : Str × Option Location := (e.1.1.text, e.1.2)

/-- Whether a bucket holds an entry with the given key. -/
def hasKeyB {H : Type} (b : Bucket H) (k : Str × Option Location) : Bool :=
  b.any (fun e => decide (keyOf e = k))

/-- The handler a bucket stores for a key, if any. -/
def lookupB {H : Type} (b : Bucket H) (k : Str × Option Location) : Option H :=
  (b.find? (fun e => decide (keyOf e = k))).map (fun e => e.2)

/-- Embedding of `HashMap::insert` on a bucket: when the key is already
present the stored handler is replaced (the stored key, hence the stored
regex, is kept — `insert` does not update an existing key); a fresh key adds
a new entry. -/
def insertE {H : Type} (b : Bucket H) (p : Pattern) (loc : Option Location)
    (h : H) : Bucket H :=
  if hasKeyB b (p.text, loc) then
    b.map (fun e => if keyOf e = (p.text, loc) then (e.1, h) else e)
  else b ++ [((p, loc), h)]

/-- Embedding of `HashMap::extend`: insert every entry of the second bucket
into the first, in order. -/
def extendB {H : Type} (a b : Bucket H) : Bucket H :=
  b.foldl (fun acc e => insertE acc e.1.1 e.1.2 e.2) a

/-- The step registry `Collection<World>`: three buckets keyed by step kind.
Handlers are opaque to the registry, so they are a type parameter `H`
(`Step<World>` function pointers in the source). -/
structure Collection (H : Type) : Type where
  givenB : Bucket H
  whenB : Bucket H
  thenB : Bucket H
deriving DecidableEq, Repr

/-- Embedding of `Collection::new` / `Collection::default`: all three
buckets empty. -/
def Collection.new {H : Type} : Collection H := ⟨[], [], []⟩

/-- Embedding of `Collection::given`: insert into the Given bucket. -/
def Collection.given {H : Type} (c : Collection H) (loc : Option Location)
    (p : Pattern) (h : H) : Collection H :=
  { c with givenB := insertE c.givenB p loc h }

/-- Embedding of `Collection::when`: insert into the When bucket. -/
def Collection.when {H : Type} (c : Collection H) (loc : Option Location)
    (p : Pattern) (h : H) : Collection H :=
  { c with whenB := insertE c.whenB p loc h }

/-- Embedding of `Collection::then`: insert into the Then bucket (`thn`
since `then` is reserved). -/
def Collection.thn {H : Type} (c : Collection H) (loc : Option Location)
    (p : Pattern) (h : H) : Collection H :=
  { c with thenB := insertE c.thenB p loc h }

/-- Embedding of `Collection::merge`: extend each bucket of `self` with the
corresponding bucket of `other`. -/
def Collection.merge {H : Type} (c other : Collection H) : Collection H :=
  { givenB := extendB c.givenB other.givenB
    whenB := extendB c.whenB other.whenB
    thenB := extendB c.thenB other.thenB }

/-- Embedding of `Collection::compose`: left fold of `merge` over the list,
seeded with the empty collection. -/
def Collection.compose {H : Type} (l : List (Collection H)) : Collection H :=
  l.foldl (fun acc c => acc.merge c) Collection.new

/-- The bucket selected by a step kind (the `match step.ty` at the start of
`Collection::find`). -/
def bucketFor {H : Type} (c : Collection H) (ty : StepType) : Bucket H :=
  match ty with
  | .given => c.givenB
  | .when => c.whenB
  | .thn => c.thenB

/-- The `captures` vector of `Collection::find`: every entry of the selected
bucket whose regex search over the step text succeeds, paired with its
whole-match span and capture locations. -/
def matchedEntries {H : Type} (c : Collection H) (step : GStep) :
    List (Entry H × ((Nat × Nat) × List (Option (Nat × Nat)))) :=
  (bucketFor c step.ty).filterMap
    (fun e => (capturesRead e.1.1.ast step.value).map (fun m => (e, m)))

/-- Substring of the haystack between two byte positions (the
`&step.value[s..e]` slices in `Collection::find`). -/
def sliceStr (s : Str) (a b : Nat) : Str := (s.drop a).take (b - a)

/-- Modelled from the spec: the total order behind `.sorted()` in
`Collection::find` (the `Ord` of `HashableRegex` lives in the absent
`step/regex.rs`; the spec requires "a deterministic total order" on the
(pattern, location) pairs).  Characters, then strings lexicographically. -/
def strLe : Str → Str → Bool
  | [], _ => true
  | _ :: _, [] => false
  | a :: as, b :: bs => if a < b then true else if b < a then false else strLe as bs

/-- Modelled from the spec: order on optional locations, absent location
first, then by (line, column). -/
def locLe : Option Location → Option Location → Bool
  | none, _ => true
  | some _, none => false
  | some x, some y =>
    decide (x.line < y.line ∨ (x.line = y.line ∧ x.col ≤ y.col))

/-- Modelled from the spec: the deterministic total order on the
(pattern, location) pairs reported by an `AmbiguousMatchError`: by pattern
text, ties broken by location. -/
def pairLe (x y : Pattern × Option Location) : Bool :=
  if x.1.text = y.1.text then locLe x.2 y.2 else strLe x.1.text y.1.text

/-- The `matches` list of the returned `Context`: capture names zipped with
the whole-match text followed by one slice per capture group, an empty
string for a group that did not participate. -/
def buildMatches (r : RE) (s : Str) (whole : Nat × Nat)
    (caps : List (Option (Nat × Nat))) : List (Option Str × Str) :=
  (captureNames r).zip
    (sliceStr s whole.1 whole.2 ::
      (List.range (caps.length - 1)).map (fun gid =>
        match caps[gid + 1]? with
        | some (some sp) => sliceStr s sp.1 sp.2
        | _ => []))

/-- Embedding of `Collection::find`: select the bucket for the step's kind,
collect every entry whose regex search over the step text succeeds; none
collected is `Ok(None)`, exactly one yields the handler with its capture
locations, location and `Context`, and two or more yield an
`AmbiguousMatchError` with the sorted (pattern, location) pairs. -/
def Collection.find {H : Type} (c : Collection H) (step : GStep) :
    Except AmbiguousMatchError
      (Option (H × List (Option (Nat × Nat)) × Option Location × Context)) :=
  match matchedEntries c step with
  | [] => .ok none
  | [(e, (whole, caps))] =>
    .ok (some (e.2, caps, e.1.2,
      { step := step
        matchesL := buildMatches e.1.1.ast step.value whole caps }))
  | ms =>
    .error
      { possible_matches := (ms.map (fun x => x.1.1)).mergeSort pairLe }

/-- Key sets are pairwise distinct in a bucket: the invariant every real
`HashMap` iteration satisfies. -/
def wfBucket {H : Type} (b : Bucket H) : Prop := (b.map keyOf).Nodup

instance {H : Type} (b : Bucket H) : Decidable (wfBucket b) := by
  unfold wfBucket; infer_instance

/-- All three buckets have pairwise distinct keys. -/
def Collection.WF {H : Type} (c : Collection H) : Prop :=
  wfBucket c.givenB ∧ wfBucket c.whenB ∧ wfBucket c.thenB

instance {H : Type} (c : Collection H) : Decidable c.WF := by
  unfold Collection.WF; infer_instance

instance {ε α : Type} [DecidableEq ε] [DecidableEq α] :
    DecidableEq (Except ε α) := fun x y =>
  match x, y with
  | .ok a, .ok b =>
    if h : a = b then .isTrue (by rw [h]) else .isFalse (by simp [h])
  | .ok _, .error _ => .isFalse (by simp)
  | .error _, .ok _ => .isFalse (by simp)
  | .error a, .error b =>
    if h : a = b then .isTrue (by rw [h]) else .isFalse (by simp [h])

/-! Basic facts about the collected matches of `find`. -/

theorem capturesRead_length {r : RE} {s : Str} {w : Nat × Nat}
    {caps : List (Option (Nat × Nat))} (h : capturesRead r s = some (w, caps)) :
    caps.length = numGroups r + 1 := by
  unfold capturesRead at h
  cases hs : searchFrom (s.length + 1) r s 0 with
  | none => rw [hs] at h; exact absurd h (by simp)
  | some v =>
    rw [hs] at h
    obtain ⟨span, g⟩ := v
    simp only [Option.some.injEq, Prod.mk.injEq] at h
    rw [← h.2]
    simp [Nat.add_comm]

theorem matchedEntries_map_fst {H : Type} (c : Collection H) (step : GStep) :
    (matchedEntries c step).map Prod.fst =
      (bucketFor c step.ty).filter
        (fun e => (capturesRead e.1.1.ast step.value).isSome) := by
  unfold matchedEntries
  induction bucketFor c step.ty with
  | nil => rfl
  | cons e rest ih =>
    cases h : capturesRead e.1.1.ast step.value with
    | none => simpa [List.filterMap_cons, List.filter_cons, h] using ih
    | some m => simpa [List.filterMap_cons, List.filter_cons, h] using ih

theorem mem_matchedEntries {H : Type} {c : Collection H} {step : GStep}
    {x : Entry H × ((Nat × Nat) × List (Option (Nat × Nat)))}
    (h : x ∈ matchedEntries c step) :
    x.1 ∈ bucketFor c step.ty ∧ capturesRead x.1.1.1.ast step.value = some x.2 := by
  unfold matchedEntries at h
  obtain ⟨e, he, hm⟩ := List.mem_filterMap.mp h
  cases hc : capturesRead e.1.1.ast step.value with
  | none => rw [hc] at hm; exact absurd hm (by simp)
  | some m =>
    rw [hc] at hm
    simp only [Option.map_some', Option.some.injEq] at hm
    subst hm
    exact ⟨he, hc⟩

theorem find_ok_none_iff {H : Type} (c : Collection H) (step : GStep) :
    c.find step = .ok none ↔ matchedEntries c step = [] := by
  unfold Collection.find
  cases h : matchedEntries c step with
  | nil => simp
  | cons a t =>
    cases t with
    | nil => obtain ⟨e, whole, caps⟩ := a; simp
    | cons b t2 => simp

/-- C1 (amended): `find` considers a stored pattern of the step's kind a
match exactly when the pattern's regex matches somewhere in the step text (a
leftmost, unanchored search, as performed by `Regex::captures_read`) — not
only when the whole step text satisfies it — and the collected matches are
exactly the stored patterns of that kind whose regex search over the step
text succeeds; in particular `find` reports "no handler" precisely when no
stored pattern's search succeeds. -/
theorem find_collects_exactly_search_matches {H : Type} (c : Collection H)
    (step : GStep) :
    (matchedEntries c step).map Prod.fst =
      (bucketFor c step.ty).filter
        (fun e => (capturesRead e.1.1.ast step.value).isSome)
    ∧ (c.find step = .ok none ↔ matchedEntries c step = []) :=
  ⟨matchedEntries_map_fst c step, find_ok_none_iff c step⟩

/-- Registry and step exhibiting substring matching: the pattern is the
regex `b`, the step text is `ab`. -/
def cex1P : Pattern := ⟨"b".data, .char 'b'⟩

/-- A registry holding only `cex1P` as a Given pattern. -/
def cex1C : Collection Nat := Collection.new.given none cex1P 7

/-- A Given step whose text is `ab`. -/
def cex1Step : GStep := ⟨"Given ".data, .given, "ab".data⟩

/-- C1 (counterexample): the whole step text `ab` does not satisfy the
regular expression `b`, yet `find` considers the pattern a match (it returns
the pattern's handler, with the substring `b` as the whole match).  So
matching is a substring search, not a full anchored match. -/
theorem find_matches_substring_cex :
    cex1C.find cex1Step =
      .ok (some (7, [some (1, 2)], none,
        { step := cex1Step, matchesL := [(none, "b".data)] }))
    ∧ fullMatch cex1P.ast cex1Step.value = false := by
  exact ⟨by decide, by decide⟩

/-- C7: when no stored pattern of the step's kind matches the step text,
`find` returns `Ok(None)` — the "no handler" outcome, not an error. -/
theorem find_ok_none_of_no_match {H : Type} (c : Collection H) (step : GStep)
    (h : ∀ e ∈ bucketFor c step.ty, capturesRead e.1.1.ast step.value = none) :
    c.find step = .ok none := by
  rw [find_ok_none_iff]
  unfold matchedEntries
  rw [List.filterMap_eq_nil_iff]
  intro e he
  rw [h e he]
  rfl

/-- A registry holding one Given pattern (`b`) that does not occur in the
step text `cd`. -/
def w7C : Collection Nat := Collection.new.given none cex1P 7

/-- A Given step whose text is `cd`. -/
def w7Step : GStep := ⟨"Given ".data, .given, "cd".data⟩

/-- C7 (witness): the concrete registry `w7C` has no pattern matching the
step text `cd`, and `find` returns `Ok(None)` on it. -/
theorem find_ok_none_of_no_match_witness : w7C.find w7Step = .ok none :=
  find_ok_none_of_no_match w7C w7Step (by decide)

/-- C8: `find` consults only the bucket selected by the step's kind — two
registries with the same bucket for that kind produce identical outcomes,
whatever their other buckets hold. -/
theorem find_depends_only_on_kind_bucket {H : Type} (c₁ c₂ : Collection H)
    (step : GStep) (h : bucketFor c₁ step.ty = bucketFor c₂ step.ty) :
    c₁.find step = c₂.find step := by
  unfold Collection.find matchedEntries
  rw [h]

/-- A registry with one Given pattern and one When pattern. -/
def w8C1 : Collection Nat :=
  (Collection.new.given none cex1P 7).when none ⟨"x".data, .char 'x'⟩ 8

/-- A registry with the same Given bucket as `w8C1` but different When and
Then buckets. -/
def w8C2 : Collection Nat :=
  (Collection.new.given none cex1P 7).thn none ⟨"y".data, .char 'y'⟩ 9

/-- C8 (witness): `w8C1` and `w8C2` differ in their When/Then buckets but
share the Given bucket, so `find` on a Given step agrees on them. -/
theorem find_depends_only_on_kind_bucket_witness :
    w8C1.find cex1Step = w8C2.find cex1Step :=
  find_depends_only_on_kind_bucket w8C1 w8C2 cex1Step (by decide)

theorem groupNames_length (r : RE) : (groupNames r).length = numGroups r := by
  induction r with
  | eps => rfl
  | char c => rfl
  | cls neg ranges => rfl
  | seq a b iha ihb => simp [groupNames, numGroups, iha, ihb]
  | alt a b iha ihb => simp [groupNames, numGroups, iha, ihb]
  | star a iha => simpa [groupNames, numGroups] using iha
  | plus a iha => simpa [groupNames, numGroups] using iha
  | group a iha => simp [groupNames, numGroups, iha]
  | ngroup nm a iha => simp [groupNames, numGroups, iha]

theorem find_of_single_matched {H : Type} {c : Collection H} {step : GStep}
    {e : Entry H} {whole : Nat × Nat} {caps : List (Option (Nat × Nat))}
    (h1 : matchedEntries c step = [(e, (whole, caps))]) :
    c.find step = .ok (some (e.2, caps, e.1.2,
      { step := step
        matchesL := buildMatches e.1.1.ast step.value whole caps })) := by
  unfold Collection.find
  rw [h1]

theorem caps_length_of_single_matched {H : Type} {c : Collection H}
    {step : GStep} {e : Entry H} {whole : Nat × Nat}
    {caps : List (Option (Nat × Nat))}
    (h1 : matchedEntries c step = [(e, (whole, caps))]) :
    caps.length = numGroups e.1.1.ast + 1 := by
  have hm : (e, (whole, caps)) ∈ matchedEntries c step := by
    rw [h1]; exact List.mem_singleton_self _
  exact capturesRead_length (mem_matchedEntries hm).2

theorem buildMatches_length (r : RE) (s : Str) (whole : Nat × Nat)
    (caps : List (Option (Nat × Nat))) (hc : caps.length = numGroups r + 1) :
    (buildMatches r s whole caps).length = 1 + numGroups r := by
  unfold buildMatches captureNames
  rw [List.length_zip]
  simp [groupNames_length, hc, Nat.add_comm]

/-- C3 (amended): when exactly one stored pattern of the step's kind matches
the step text, `find` returns that pattern's handler together with a
`Context` whose matches list has at index 0 the whole match — the substring
of the step text matched by the regex (which is the full step text only when
the match spans it) — followed by one entry per capture group of the matched
regex. -/
theorem find_single_match {H : Type} (c : Collection H) (step : GStep)
    (e : Entry H) (whole : Nat × Nat) (caps : List (Option (Nat × Nat)))
    (h1 : matchedEntries c step = [(e, (whole, caps))]) :
    c.find step = .ok (some (e.2, caps, e.1.2,
      { step := step
        matchesL := buildMatches e.1.1.ast step.value whole caps }))
    ∧ (buildMatches e.1.1.ast step.value whole caps)[0]? =
        some (none, sliceStr step.value whole.1 whole.2)
    ∧ (buildMatches e.1.1.ast step.value whole caps).length =
        1 + numGroups e.1.1.ast := by
  refine ⟨find_of_single_matched h1, ?_, ?_⟩
  · unfold buildMatches captureNames
    simp [List.zip_cons_cons]
  · exact buildMatches_length _ _ _ _ (caps_length_of_single_matched h1)

/-- The pattern `I have (\d+) cucumbers` with its source text. -/
def w3P : Pattern :=
  ⟨"I have ([0-9]+) cucumbers".data,
    .seq (str2re "I have ".data)
      (.seq (.group (.plus (.cls false [('0', '9')])))
        (str2re " cucumbers".data))⟩

/-- A registry holding only `w3P` as a Given pattern. -/
def w3C : Collection Nat := Collection.new.given none w3P 5

/-- A Given step whose text is `I have 5 cucumbers`. -/
def w3Step : GStep := ⟨"Given ".data, .given, "I have 5 cucumbers".data⟩

/-- C3 (witness): on the registry `w3C`, exactly one pattern matches
`I have 5 cucumbers`, and `find` returns its handler with the whole match at
index 0 followed by the one capture-group entry. -/
theorem find_single_match_witness :
    w3C.find w3Step = .ok (some (5, [some (0, 18), some (7, 8)], none,
      { step := w3Step
        matchesL := buildMatches w3P.ast w3Step.value (0, 18)
          [some (0, 18), some (7, 8)] })) :=
  (find_single_match w3C w3Step ((w3P, none), 5) (0, 18)
    [some (0, 18), some (7, 8)] (by decide)).1

/-- A registry holding only the pattern `b` (as a Given pattern, handler
3). -/
def cex3C : Collection Nat := Collection.new.given none ⟨"b".data, .char 'b'⟩ 3

/-- A Given step whose text is `ab`. -/
def cex3Step : GStep := ⟨"Given ".data, .given, "ab".data⟩

/-- C3 (counterexample): exactly one stored pattern matches the step text
`ab`, and `find` returns its handler — but index 0 of the matches list holds
`b`, the whole match, which is not the full step text. -/
theorem find_single_match_index0_cex :
    cex3C.find cex3Step = .ok (some (3, [some (1, 2)], none,
      { step := cex3Step, matchesL := [(none, "b".data)] }))
    ∧ "b".data ≠ cex3Step.value := ⟨by decide, by decide⟩

theorem buildMatches_getElem {r : RE} {s : Str} {whole : Nat × Nat}
    {caps : List (Option (Nat × Nat))} (hc : caps.length = numGroups r + 1)
    {gid : Nat} (hg : gid + 1 < caps.length) :
    ∃ nm, (captureNames r)[gid + 1]? = some nm ∧
      (buildMatches r s whole caps)[gid + 1]? =
        some (nm,
          match caps[gid + 1]? with
          | some (some sp) => sliceStr s sp.1 sp.2
          | _ => []) := by
  have hgn : gid < numGroups r := by omega
  have hlen : gid < (groupNames r).length := by rw [groupNames_length]; exact hgn
  obtain ⟨nm, hnm⟩ : ∃ nm, (groupNames r)[gid]? = some nm :=
    ⟨(groupNames r)[gid], List.getElem?_eq_getElem hlen⟩
  refine ⟨nm, ?_, ?_⟩
  · simpa [captureNames] using hnm
  · unfold buildMatches
    rw [List.getElem?_zip_eq_some]
    constructor
    · simpa [captureNames] using hnm
    · simp only [List.getElem?_cons_succ, List.getElem?_map]
      have hr : (List.range (caps.length - 1))[gid]? = some gid := by
        rw [List.getElem?_range (by omega)]
      rw [hr]
      rfl

/-- C5: in the `Context` returned by `find`, a capture group of the matched
regex that did not participate contributes an empty string at its index (the
entry is present, not omitted), and every entry pairs the group's optional
name with its captured substring. -/
theorem find_group_entries {H : Type} (c : Collection H) (step : GStep)
    (e : Entry H) (whole : Nat × Nat) (caps : List (Option (Nat × Nat)))
    (h1 : matchedEntries c step = [(e, (whole, caps))]) :
    ∃ ctx : Context, c.find step = .ok (some (e.2, caps, e.1.2, ctx))
      ∧ ctx.matchesL.length = caps.length
      ∧ (∀ gid : Nat, gid + 1 < caps.length → caps[gid + 1]? = some none →
          ∃ nm, (captureNames e.1.1.ast)[gid + 1]? = some nm ∧
            ctx.matchesL[gid + 1]? = some (nm, []))
      ∧ (∀ gid : Nat, ∀ sp : Nat × Nat, gid + 1 < caps.length →
          caps[gid + 1]? = some (some sp) →
          ∃ nm, (captureNames e.1.1.ast)[gid + 1]? = some nm ∧
            ctx.matchesL[gid + 1]? = some (nm, sliceStr step.value sp.1 sp.2)) := by
  have hc := caps_length_of_single_matched h1
  refine ⟨_, find_of_single_matched h1, ?_, ?_, ?_⟩
  · rw [buildMatches_length _ _ _ _ hc, hc, Nat.add_comm]
  · intro gid hg hnone
    obtain ⟨nm, hnm, hb⟩ :=
      @buildMatches_getElem e.1.1.ast step.value whole caps hc gid hg
    exact ⟨nm, hnm, by rw [hb, hnone]⟩
  · intro gid sp hg hsp
    obtain ⟨nm, hnm, hb⟩ :=
      @buildMatches_getElem e.1.1.ast step.value whole caps hc gid hg
    exact ⟨nm, hnm, by rw [hb, hsp]⟩

/-- The pattern `a(b)?` with its source text: an optional capture group. -/
def w5P : Pattern := ⟨"a(b)?".data, .seq (.char 'a') (RE.opt (.group (.char 'b')))⟩

/-- A registry holding only `w5P` as a Given pattern. -/
def w5C : Collection Nat := Collection.new.given none w5P 4

/-- A Given step whose text is `a`, so the optional group cannot
participate. -/
def w5Step : GStep := ⟨"Given ".data, .given, "a".data⟩

/-- C5 (witness): on the registry `w5C` and step text `a`, the pattern
`a(b)?` matches with its group unset, and the returned matches list still
has an entry for the group, pairing its (absent) name with the empty
string. -/
theorem find_group_entries_witness :
    ∃ ctx : Context, w5C.find w5Step = .ok (some (4, [some (0, 1), none], none, ctx))
      ∧ ctx.matchesL.length = ([some (0, 1), none] : List (Option (Nat × Nat))).length
      ∧ (∀ gid : Nat, gid + 1 < ([some (0, 1), none] : List (Option (Nat × Nat))).length →
          ([some (0, 1), none] : List (Option (Nat × Nat)))[gid + 1]? = some none →
          ∃ nm, (captureNames w5P.ast)[gid + 1]? = some nm ∧
            ctx.matchesL[gid + 1]? = some (nm, []))
      ∧ (∀ gid : Nat, ∀ sp : Nat × Nat,
          gid + 1 < ([some (0, 1), none] : List (Option (Nat × Nat))).length →
          ([some (0, 1), none] : List (Option (Nat × Nat)))[gid + 1]? = some (some sp) →
          ∃ nm, (captureNames w5P.ast)[gid + 1]? = some nm ∧
            ctx.matchesL[gid + 1]? = some (nm, sliceStr w5Step.value sp.1 sp.2)) :=
  find_group_entries w5C w5Step ((w5P, none), 4) (0, 1) [some (0, 1), none]
    (by decide)

/-! Properties of the (spec-modelled) total order used to sort the
(pattern, location) pairs of an `AmbiguousMatchError`. -/

theorem strLe_total : ∀ a b : Str, (strLe a b || strLe b a) = true
  | [], _ => by simp [strLe]
  | _ :: _, [] => by simp [strLe]
  | x :: xs, y :: ys => by
    simp only [strLe]
    rcases lt_trichotomy x y with h | h | h
    · simp [h]
    · subst h
      simp only [lt_irrefl, if_false]
      exact strLe_total xs ys
    · simp [h, lt_asymm h]

theorem strLe_trans : ∀ a b c : Str,
    strLe a b = true → strLe b c = true → strLe a c = true
  | [], _, _, _, _ => rfl
  | _ :: _, [], _, h1, _ => by simp [strLe] at h1
  | _ :: _, _ :: _, [], _, h2 => by simp [strLe] at h2
  | x :: xs, y :: ys, z :: zs, h1, h2 => by
    simp only [strLe] at h1 h2 ⊢
    rcases lt_trichotomy x y with hxy | hxy | hxy
    · rcases lt_trichotomy y z with hyz | hyz | hyz
      · simp [lt_trans hxy hyz]
      · subst hyz; simp [hxy]
      · rw [if_neg (lt_asymm hyz), if_pos hyz] at h2
        exact absurd h2 (by simp)
    · subst hxy
      rw [if_neg (lt_irrefl x), if_neg (lt_irrefl x)] at h1
      rcases lt_trichotomy x z with hxz | hxz | hxz
      · simp [hxz]
      · subst hxz
        rw [if_neg (lt_irrefl x), if_neg (lt_irrefl x)] at h2 ⊢
        exact strLe_trans xs ys zs h1 h2
      · rw [if_neg (lt_asymm hxz), if_pos hxz] at h2
        exact absurd h2 (by simp)
    · rw [if_neg (lt_asymm hxy), if_pos hxy] at h1
      exact absurd h1 (by simp)

theorem strLe_antisymm : ∀ a b : Str,
    strLe a b = true → strLe b a = true → a = b
  | [], [], _, _ => rfl
  | [], _ :: _, _, h2 => by simp [strLe] at h2
  | _ :: _, [], h1, _ => by simp [strLe] at h1
  | x :: xs, y :: ys, h1, h2 => by
    simp only [strLe] at h1 h2
    rcases lt_trichotomy x y with h | h | h
    · rw [if_neg (lt_asymm h), if_pos h] at h2
      exact absurd h2 (by simp)
    · subst h
      rw [if_neg (lt_irrefl x), if_neg (lt_irrefl x)] at h1 h2
      rw [strLe_antisymm xs ys h1 h2]
    · rw [if_neg (lt_asymm h), if_pos h] at h1
      exact absurd h1 (by simp)

theorem locLe_total : ∀ x y : Option Location, (locLe x y || locLe y x) = true
  | none, _ => by simp [locLe]
  | some _, none => by simp [locLe]
  | some a, some b => by
    simp only [locLe, Bool.or_eq_true, decide_eq_true_eq]
    omega

theorem locLe_trans : ∀ x y z : Option Location,
    locLe x y = true → locLe y z = true → locLe x z = true
  | none, _, _, _, _ => rfl
  | some _, none, _, h1, _ => by simp [locLe] at h1
  | some _, some _, none, _, h2 => by simp [locLe] at h2
  | some a, some b, some c, h1, h2 => by
    simp only [locLe, decide_eq_true_eq] at h1 h2 ⊢
    omega

theorem locLe_antisymm : ∀ x y : Option Location,
    locLe x y = true → locLe y x = true → x = y
  | none, none, _, _ => rfl
  | none, some _, _, h2 => by simp [locLe] at h2
  | some _, none, h1, _ => by simp [locLe] at h1
  | some a, some b, h1, h2 => by
    simp only [locLe, decide_eq_true_eq] at h1 h2
    cases a with
    | mk al ac =>
      cases b with
      | mk bl bc =>
        simp only at h1 h2
        have hl : al = bl ∧ ac = bc := by omega
        rw [hl.1, hl.2]

theorem pairLe_total (x y : Pattern × Option Location) :
    (pairLe x y || pairLe y x) = true := by
  unfold pairLe
  by_cases h : x.1.text = y.1.text
  · rw [if_pos h, if_pos h.symm]
    exact locLe_total x.2 y.2
  · rw [if_neg h, if_neg (fun hh => h hh.symm)]
    exact strLe_total x.1.text y.1.text

theorem pairLe_trans (x y z : Pattern × Option Location)
    (h1 : pairLe x y = true) (h2 : pairLe y z = true) : pairLe x z = true := by
  unfold pairLe at h1 h2 ⊢
  by_cases hxy : x.1.text = y.1.text <;> by_cases hyz : y.1.text = z.1.text
  · rw [if_pos hxy] at h1
    rw [if_pos hyz] at h2
    rw [if_pos (hxy.trans hyz)]
    exact locLe_trans _ _ _ h1 h2
  · rw [if_neg hyz] at h2
    rw [if_neg (fun hh => hyz (hxy ▸ hh))]
    rw [hxy]
    exact h2
  · rw [if_neg hxy] at h1
    rw [if_neg (fun hh => hxy (hyz ▸ hh))]
    rw [← hyz]
    exact h1
  · rw [if_neg hxy] at h1
    rw [if_neg hyz] at h2
    by_cases hxz : x.1.text = z.1.text
    · exact absurd (strLe_antisymm _ _ h1 (hxz ▸ h2)) hxy
    · rw [if_neg hxz]
      exact strLe_trans _ _ _ h1 h2

/-- The sort key of a reported (pattern, location) pair: text and
location. -/
def keyPr (pr : Pattern × Option Location) : Str × Option Location :=
  (pr.1.text, pr.2)

theorem pairLe_key_antisymm (x y : Pattern × Option Location)
    (h1 : pairLe x y = true) (h2 : pairLe y x = true) : keyPr x = keyPr y := by
  unfold pairLe at h1 h2
  unfold keyPr
  by_cases h : x.1.text = y.1.text
  · rw [if_pos h] at h1
    rw [if_pos h.symm] at h2
    rw [h, locLe_antisymm _ _ h1 h2]
  · rw [if_neg h] at h1
    rw [if_neg (fun hh => h hh.symm)] at h2
    exact absurd (strLe_antisymm _ _ h1 h2) h

/-- Two sorted lists that are permutations of each other and whose keys are
pairwise distinct are equal, provided the order is antisymmetric up to the
key.  This is what makes the sorted ambiguity report independent of the hash
map's iteration order. -/
theorem sorted_perm_eq_of_nodup_keys {α κ : Type} {le : α → α → Bool}
    {key : α → κ}
    (anti : ∀ a b, le a b = true → le b a = true → key a = key b) :
    ∀ l₁ l₂ : List α, l₁.Perm l₂ →
      l₁.Pairwise (fun a b => le a b = true) →
      l₂.Pairwise (fun a b => le a b = true) →
      (l₁.map key).Nodup → l₁ = l₂ := by
  intro l₁
  induction l₁ with
  | nil =>
    intro l₂ hp _ _ _
    exact (List.Perm.eq_nil hp.symm).symm
  | cons h₁ t₁ ih =>
    intro l₂ hp hs₁ hs₂ hnd
    cases l₂ with
    | nil => exact absurd (List.Perm.eq_nil hp) (by simp)
    | cons h₂ t₂ =>
      have hmem₂ : h₂ ∈ h₁ :: t₁ := hp.symm.subset (List.mem_cons_self h₂ t₂)
      have hmem₁ : h₁ ∈ h₂ :: t₂ := hp.subset (List.mem_cons_self h₁ t₁)
      have hnd2 : (key h₁ ∉ t₁.map key) ∧ (t₁.map key).Nodup := by
        rw [List.map_cons] at hnd
        exact List.nodup_cons.mp hnd
      have hEq : h₁ = h₂ := by
        rcases List.mem_cons.mp hmem₂ with h | hin₂
        · exact h.symm
        rcases List.mem_cons.mp hmem₁ with h | hin₁
        · exact h
        · have l₁₂ : le h₁ h₂ = true := (List.pairwise_cons.mp hs₁).1 h₂ hin₂
          have l₂₁ : le h₂ h₁ = true := (List.pairwise_cons.mp hs₂).1 h₁ hin₁
          have hk : key h₁ = key h₂ := anti _ _ l₁₂ l₂₁
          have hkin : key h₂ ∈ t₁.map key := List.mem_map_of_mem key hin₂
          exact absurd (hk ▸ hkin) hnd2.1
      subst hEq
      have := ih t₂ hp.cons_inv (List.pairwise_cons.mp hs₁).2
        (List.pairwise_cons.mp hs₂).2 hnd2.2
      rw [this]

/-- The (pattern, location) pairs of the collected matches, in bucket
iteration order (before sorting). -/
def matchedPairs {H : Type} (c : Collection H) (step : GStep) :
    List (Pattern × Option Location) :=
  (matchedEntries c step).map (fun x => x.1.1)

theorem find_error_of_two {H : Type} {c : Collection H} {step : GStep}
    {a b : Entry H × ((Nat × Nat) × List (Option (Nat × Nat)))}
    {t : List (Entry H × ((Nat × Nat) × List (Option (Nat × Nat))))}
    (h : matchedEntries c step = a :: b :: t) :
    c.find step = .error ⟨((matchedPairs c step).mergeSort pairLe)⟩ := by
  unfold Collection.find matchedPairs
  rw [h]

theorem matchedPairs_keys_nodup {H : Type} {c : Collection H} {step : GStep}
    (hwf : wfBucket (bucketFor c step.ty)) :
    ((matchedPairs c step).map keyPr).Nodup := by
  have h1 : (matchedPairs c step).map keyPr =
      ((matchedEntries c step).map Prod.fst).map keyOf := by
    unfold matchedPairs
    simp only [List.map_map]
    rfl
  rw [h1, matchedEntries_map_fst]
  exact ((List.filter_sublist _).map keyOf).nodup hwf

theorem matchedEntries_perm {H : Type} {c₁ c₂ : Collection H} {step : GStep}
    (hperm : (bucketFor c₁ step.ty).Perm (bucketFor c₂ step.ty)) :
    (matchedEntries c₁ step).Perm (matchedEntries c₂ step) := by
  unfold matchedEntries
  exact hperm.filterMap _

/-- C2: when two or more stored patterns of the step's kind match the step
text, `find` returns an `AmbiguousMatchError` whose `possible_matches` list
holds exactly the (pattern, location) pairs that matched, is sorted by the
total order `pairLe`, and is independent of the bucket's iteration order: any
registry whose bucket for the step's kind is a permutation of this one
(i.e. the same hash map iterated in any order) produces the identical
outcome, so repeated calls report identical ambiguity diagnostics. -/
theorem find_ambiguous_exact_sorted_deterministic {H : Type}
    (c : Collection H) (step : GStep)
    (hwf : wfBucket (bucketFor c step.ty))
    (h2 : 2 ≤ (matchedEntries c step).length) :
    ∃ err : AmbiguousMatchError, c.find step = .error err
      ∧ (∀ pr : Pattern × Option Location,
          pr ∈ err.possible_matches ↔ pr ∈ matchedPairs c step)
      ∧ err.possible_matches.Pairwise (fun a b => pairLe a b = true)
      ∧ (∀ c₂ : Collection H,
          (bucketFor c₂ step.ty).Perm (bucketFor c step.ty) →
          c₂.find step = c.find step) := by
  obtain ⟨a, b, t, hms⟩ :
      ∃ a b t, matchedEntries c step = a :: b :: t := by
    cases hm : matchedEntries c step with
    | nil => rw [hm] at h2; exact absurd h2 (by simp)
    | cons a t1 =>
      cases t1 with
      | nil => rw [hm] at h2; exact absurd h2 (by simp)
      | cons b t => exact ⟨a, b, t, rfl⟩
  refine ⟨⟨(matchedPairs c step).mergeSort pairLe⟩, find_error_of_two hms,
    fun pr => (List.mergeSort_perm (matchedPairs c step) pairLe).mem_iff,
    List.sorted_mergeSort pairLe_trans pairLe_total (matchedPairs c step),
    ?_⟩
  intro c₂ hperm
  have hpe : (matchedEntries c₂ step).Perm (matchedEntries c step) :=
    matchedEntries_perm hperm
  obtain ⟨a₂, b₂, t₂, hms₂⟩ :
      ∃ a₂ b₂ t₂, matchedEntries c₂ step = a₂ :: b₂ :: t₂ := by
    have hlen : 2 ≤ (matchedEntries c₂ step).length := by
      rw [hpe.length_eq]; exact h2
    cases hm : matchedEntries c₂ step with
    | nil => rw [hm] at hlen; exact absurd hlen (by simp)
    | cons a t1 =>
      cases t1 with
      | nil => rw [hm] at hlen; exact absurd hlen (by simp)
      | cons b t => exact ⟨a, b, t, rfl⟩
  rw [find_error_of_two hms₂, find_error_of_two hms]
  have hpairs : (matchedPairs c₂ step).Perm (matchedPairs c step) :=
    hpe.map _
  have hsorted₂ := List.sorted_mergeSort pairLe_trans pairLe_total
    (matchedPairs c₂ step)
  have hsorted₁ := List.sorted_mergeSort pairLe_trans pairLe_total
    (matchedPairs c step)
  have hpm : ((matchedPairs c₂ step).mergeSort pairLe).Perm
      ((matchedPairs c step).mergeSort pairLe) :=
    ((List.mergeSort_perm _ _).trans hpairs).trans
      (List.mergeSort_perm _ _).symm
  have hnd : (((matchedPairs c₂ step).mergeSort pairLe).map keyPr).Nodup := by
    have hnd1 := @matchedPairs_keys_nodup H c step hwf
    exact ((hpm.trans (List.mergeSort_perm _ _)).map keyPr).nodup_iff.mpr hnd1
  have heq := sorted_perm_eq_of_nodup_keys pairLe_key_antisymm
    _ _ hpm hsorted₂ hsorted₁ hnd
  rw [heq]

/-- A registry with two Given patterns, `a` and `ab`, both matching the step
text `ab`. -/
def w2C : Collection Nat :=
  (Collection.new.given none ⟨"a".data, .char 'a'⟩ 1).given none
    ⟨"ab".data, str2re "ab".data⟩ 2

/-- A Given step whose text is `ab` (both of `w2C`'s patterns match it). -/
def w2Step : GStep := ⟨"Given ".data, .given, "ab".data⟩

/-- C2 (witness): on the registry `w2C` both stored Given patterns match
`ab`, and `find` reports the sorted, iteration-order-independent ambiguity
error. -/
theorem find_ambiguous_witness :
    ∃ err : AmbiguousMatchError, w2C.find w2Step = .error err
      ∧ (∀ pr : Pattern × Option Location,
          pr ∈ err.possible_matches ↔ pr ∈ matchedPairs w2C w2Step)
      ∧ err.possible_matches.Pairwise (fun a b => pairLe a b = true)
      ∧ (∀ c₂ : Collection Nat,
          (bucketFor c₂ w2Step.ty).Perm (bucketFor w2C w2Step.ty) →
          c₂.find w2Step = w2C.find w2Step) :=
  find_ambiguous_exact_sorted_deterministic w2C w2Step (by decide) (by decide)


/-! Bucket algebra: `insertE` and `extendB`. -/

theorem hasKeyB_iff_mem {H : Type} (b : Bucket H) (k : Str × Option Location) :
    hasKeyB b k = true ↔ k ∈ b.map keyOf := by
  simp only [hasKeyB, List.any_eq_true, decide_eq_true_eq, List.mem_map]

theorem lookupB_eq_none_of_not_mem {H : Type} {b : Bucket H}
    {k : Str × Option Location} (h : k ∉ b.map keyOf) : lookupB b k = none := by
  unfold lookupB
  have hf : b.find? (fun e => decide (keyOf e = k)) = none :=
    List.find?_eq_none.mpr (fun e he => by
      simp only [decide_eq_true_eq]
      exact fun hk => h (hk ▸ List.mem_map_of_mem keyOf he))
  rw [hf]
  rfl

theorem lookupB_cons_self {H : Type} (e : Entry H) (rest : Bucket H) :
    lookupB (e :: rest) (keyOf e) = some e.2 := by
  unfold lookupB
  rw [List.find?_cons_of_pos _ (by simp)]
  rfl

theorem lookupB_cons_ne {H : Type} (e : Entry H) (rest : Bucket H)
    {k : Str × Option Location} (h : k ≠ keyOf e) :
    lookupB (e :: rest) k = lookupB rest k := by
  unfold lookupB
  rw [List.find?_cons_of_neg _ (by
    simp only [decide_eq_true_eq]
    exact fun hh => h hh.symm)]

theorem keyOf_replace {H : Type} (e : Entry H) (h : H) :
    keyOf ((e.1, h) : Entry H) = keyOf e := rfl

theorem map_keyOf_insert_map {H : Type} (b : Bucket H)
    (k0 : Str × Option Location) (h : H) :
    (b.map (fun e => if keyOf e = k0 then (e.1, h) else e)).map keyOf =
      b.map keyOf := by
  induction b with
  | nil => rfl
  | cons e rest ih =>
    by_cases he : keyOf e = k0 <;> simp [he, ih, keyOf_replace]

theorem lookupB_replace_self {H : Type} (b : Bucket H)
    (k0 : Str × Option Location) (h : H) (hk : hasKeyB b k0 = true) :
    lookupB (b.map (fun e => if keyOf e = k0 then (e.1, h) else e)) k0 =
      some h := by
  induction b with
  | nil => simp [hasKeyB] at hk
  | cons e rest ih =>
    by_cases he : keyOf e = k0
    · rw [List.map_cons, if_pos he, ← he]
      exact lookupB_cons_self (e.1, h) _
    · rw [List.map_cons, if_neg he, lookupB_cons_ne _ _ (fun hh => he hh.symm)]
      apply ih
      simp only [hasKeyB, List.any_cons, Bool.or_eq_true, decide_eq_true_eq]
        at hk
      rcases hk with hk | hk
      · exact absurd hk he
      · exact hk

theorem lookupB_replace_ne {H : Type} (b : Bucket H)
    (k0 k : Str × Option Location) (h : H) (hne : k ≠ k0) :
    lookupB (b.map (fun e => if keyOf e = k0 then (e.1, h) else e)) k =
      lookupB b k := by
  induction b with
  | nil => rfl
  | cons e rest ih =>
    by_cases he : keyOf e = k0
    · by_cases hke : k = keyOf e
      · exact absurd (hke.trans he) hne
      · rw [List.map_cons, if_pos he,
          lookupB_cons_ne ((e.1, h) : Entry H) _ hke,
          lookupB_cons_ne e _ hke, ih]
    · by_cases hke : k = keyOf e
      · rw [List.map_cons, if_neg he, hke, lookupB_cons_self,
          lookupB_cons_self]
      · rw [List.map_cons, if_neg he, lookupB_cons_ne e _ hke,
          lookupB_cons_ne e _ hke, ih]

theorem keyOf_mk {H : Type} (p : Pattern) (loc : Option Location) (h : H) :
    keyOf (((p, loc), h) : Entry H) = (p.text, loc) := rfl

theorem lookupB_insertE_self {H : Type} (b : Bucket H) (p : Pattern)
    (loc : Option Location) (h : H) :
    lookupB (insertE b p loc h) (p.text, loc) = some h := by
  unfold insertE
  by_cases hk : hasKeyB b (p.text, loc) = true
  · rw [if_pos hk]
    exact lookupB_replace_self b _ h hk
  · rw [if_neg hk]
    unfold lookupB
    have hf : b.find? (fun e => decide (keyOf e = (p.text, loc))) = none :=
      List.find?_eq_none.mpr (fun e he => by
        simp only [decide_eq_true_eq]
        intro hke
        exact hk ((hasKeyB_iff_mem b _).mpr
          (hke ▸ List.mem_map_of_mem keyOf he)))
    rw [List.find?_append, hf, Option.none_or,
      List.find?_cons_of_pos _ (by simp [keyOf_mk])]
    rfl

theorem lookupB_insertE_ne {H : Type} (b : Bucket H) (p : Pattern)
    (loc : Option Location) (h : H) {k : Str × Option Location}
    (hne : k ≠ (p.text, loc)) :
    lookupB (insertE b p loc h) k = lookupB b k := by
  unfold insertE
  by_cases hk : hasKeyB b (p.text, loc) = true
  · rw [if_pos hk]
    exact lookupB_replace_ne b _ k h hne
  · rw [if_neg hk]
    unfold lookupB
    rw [List.find?_append, List.find?_cons_of_neg _ (by
        simp only [decide_eq_true_eq, keyOf_mk]
        exact fun hh => hne hh.symm),
      List.find?_nil, Option.or_none]

theorem length_insertE_of_hasKey {H : Type} (b : Bucket H) (p : Pattern)
    (loc : Option Location) (h : H)
    (hk : hasKeyB b (p.text, loc) = true) :
    (insertE b p loc h).length = b.length := by
  unfold insertE
  rw [if_pos hk, List.length_map]

theorem hasKeyB_insertE {H : Type} (b : Bucket H) (p : Pattern)
    (loc : Option Location) (h : H) (k : Str × Option Location) :
    hasKeyB (insertE b p loc h) k =
      (hasKeyB b k || decide (k = (p.text, loc))) := by
  unfold insertE
  by_cases hk : hasKeyB b (p.text, loc) = true
  · rw [if_pos hk]
    have hkeys : hasKeyB (b.map
        (fun e => if keyOf e = (p.text, loc) then (e.1, h) else e)) k =
        hasKeyB b k := by
      rw [Bool.eq_iff_iff, hasKeyB_iff_mem, hasKeyB_iff_mem,
        map_keyOf_insert_map]
    rw [hkeys]
    by_cases hke : k = (p.text, loc)
    · simp [hke, hk]
    · simp [hke]
  · rw [if_neg hk]
    rw [Bool.eq_iff_iff]
    rw [hasKeyB_iff_mem]
    simp only [List.map_append, List.mem_append, Bool.or_eq_true,
      decide_eq_true_eq, List.map_cons, List.map_nil, List.mem_singleton,
      keyOf_mk]
    rw [← hasKeyB_iff_mem]

theorem extendB_nil {H : Type} (a : Bucket H) : extendB a [] = a := rfl

theorem extendB_cons {H : Type} (a : Bucket H) (e : Entry H)
    (rest : Bucket H) :
    extendB a (e :: rest) = extendB (insertE a e.1.1 e.1.2 e.2) rest := rfl

theorem lookupB_extendB {H : Type} :
    ∀ (b a : Bucket H), wfBucket b → ∀ k : Str × Option Location,
    lookupB (extendB a b) k = (lookupB b k).or (lookupB a k)
  | [], a, _, k => by simp [extendB_nil, lookupB]
  | e :: rest, a, hwf, k => by
    have hwf2 : wfBucket rest ∧ keyOf e ∉ rest.map keyOf := by
      unfold wfBucket at hwf ⊢
      rw [List.map_cons, List.nodup_cons] at hwf
      exact ⟨hwf.2, hwf.1⟩
    rw [extendB_cons, lookupB_extendB rest _ hwf2.1 k]
    by_cases hke : k = keyOf e
    · subst hke
      rw [lookupB_eq_none_of_not_mem hwf2.2, lookupB_cons_self,
        Option.none_or]
      rw [show lookupB (insertE a e.1.1 e.1.2 e.2) (keyOf e) =
          some e.2 from lookupB_insertE_self a e.1.1 e.1.2 e.2]
      rfl
    · rw [lookupB_cons_ne _ _ hke,
        @lookupB_insertE_ne H a e.1.1 e.1.2 e.2 k hke]

theorem hasKeyB_extendB {H : Type} :
    ∀ (b a : Bucket H) (k : Str × Option Location),
    hasKeyB (extendB a b) k = (hasKeyB a k || hasKeyB b k)
  | [], a, k => by simp [extendB_nil, hasKeyB]
  | e :: rest, a, k => by
    rw [extendB_cons, hasKeyB_extendB rest _ k, hasKeyB_insertE]
    have hdc : (decide (k = (e.1.1.text, e.1.2)) : Bool) =
        decide (keyOf e = k) := decide_eq_decide.mpr eq_comm
    rw [hdc]
    unfold hasKeyB
    rw [List.any_cons]
    cases ha : a.any (fun e => decide (keyOf e = k)) <;>
      cases hd : (decide (keyOf e = k) : Bool) <;>
      cases hr : rest.any (fun e => decide (keyOf e = k)) <;> rfl

theorem lookupB_isSome {H : Type} (b : Bucket H) (k : Str × Option Location) :
    (lookupB b k).isSome = hasKeyB b k := by
  induction b with
  | nil => rfl
  | cons e rest ih =>
    by_cases he : keyOf e = k
    · rw [← he, lookupB_cons_self]
      unfold hasKeyB
      rw [List.any_cons]
      simp
    · rw [lookupB_cons_ne e rest (fun hh => he hh.symm)]
      unfold hasKeyB at ih ⊢
      rw [List.any_cons]
      simp [he, ih]

theorem bucketFor_merge {H : Type} (a b : Collection H) (ty : StepType) :
    bucketFor (a.merge b) ty = extendB (bucketFor a ty) (bucketFor b ty) := by
  cases ty <;> rfl

/-- C4: `merge(A, B)` is right-biased: for each step kind, a key is present
in the merged bucket exactly when it is present in A's or B's bucket
(bucket-wise union), and the handler stored for a key is B's whenever B has
the key, A's otherwise. -/
theorem merge_right_biased {H : Type} (a b : Collection H) (hwf : b.WF) :
    ∀ ty : StepType, ∀ k : Str × Option Location,
      hasKeyB (bucketFor (a.merge b) ty) k =
        (hasKeyB (bucketFor a ty) k || hasKeyB (bucketFor b ty) k)
      ∧ (hasKeyB (bucketFor b ty) k = true →
          lookupB (bucketFor (a.merge b) ty) k = lookupB (bucketFor b ty) k)
      ∧ (hasKeyB (bucketFor b ty) k = false →
          lookupB (bucketFor (a.merge b) ty) k = lookupB (bucketFor a ty) k)
    := by
  intro ty k
  have hwfb : wfBucket (bucketFor b ty) := by
    cases ty
    · exact hwf.1
    · exact hwf.2.1
    · exact hwf.2.2
  rw [bucketFor_merge]
  refine ⟨hasKeyB_extendB _ _ _, ?_, ?_⟩
  · intro hk
    rw [lookupB_extendB _ _ hwfb k]
    have hs : (lookupB (bucketFor b ty) k).isSome = true := by
      rw [lookupB_isSome, hk]
    obtain ⟨v, hv⟩ := Option.isSome_iff_exists.mp hs
    rw [hv]
    rfl
  · intro hk
    rw [lookupB_extendB _ _ hwfb k]
    have hn : lookupB (bucketFor b ty) k = none := by
      have := lookupB_isSome (bucketFor b ty) k
      rw [hk] at this
      exact Option.not_isSome_iff_eq_none.mp (by rw [this]; simp)
    rw [hn, Option.none_or]

/-- The pattern `dup`, stored in both of the merged registries. -/
def w4P : Pattern := ⟨"dup".data, str2re "dup".data⟩

/-- Left operand of the witness merge: holds `dup` (handler 1) and `x`
(handler 3). -/
def w4A : Collection Nat :=
  (Collection.new.given none w4P 1).given none ⟨"x".data, .char 'x'⟩ 3

/-- Right operand of the witness merge: holds `dup` with handler 2. -/
def w4B : Collection Nat := Collection.new.given none w4P 2

/-- C4 (witness): merging `w4A` (handler 1 under the key `dup`) with `w4B`
(handler 2 under the same key) stores B's handler 2 for that key. -/
theorem merge_right_biased_witness :
    lookupB (bucketFor (w4A.merge w4B) StepType.given) (w4P.text, none) =
      some 2 := by
  have h :=
    (merge_right_biased w4A w4B (by decide) StepType.given
      (w4P.text, none)).2.1 (by decide)
  rw [h]
  decide

theorem extendB_of_wf_append {H : Type} :
    ∀ (b acc : Bucket H), wfBucket (acc ++ b) → extendB acc b = acc ++ b
  | [], acc, _ => by simp [extendB_nil]
  | e :: rest, acc, hwf => by
    have hmem : keyOf e ∉ acc.map keyOf := by
      unfold wfBucket at hwf
      rw [List.map_append, List.map_cons] at hwf
      have hdis := (List.nodup_append.mp hwf).2.2
      exact fun hm => hdis hm (List.mem_cons_self _ _)
    have hkey : hasKeyB acc (e.1.1.text, e.1.2) = false := by
      rw [Bool.eq_false_iff]
      intro htrue
      exact hmem ((hasKeyB_iff_mem _ _).mp htrue)
    rw [extendB_cons]
    have hins : insertE acc e.1.1 e.1.2 e.2 = acc ++ [e] := by
      unfold insertE
      rw [if_neg (by rw [hkey]; simp)]
    rw [hins]
    have hrec := extendB_of_wf_append rest (acc ++ [e])
      (by rwa [List.append_assoc, List.singleton_append])
    rw [hrec, List.append_assoc, List.singleton_append]

/-- C6: `compose` of the empty list is the empty registry, `compose [A]` is
`A` itself (hence `find` behaves identically on it), and in general
`compose` is the left fold of `merge` over its argument, seeded with the
empty registry. -/
theorem compose_empty_singleton_fold {H : Type} (A : Collection H)
    (hwf : A.WF) :
    Collection.compose ([] : List (Collection H)) = Collection.new
    ∧ Collection.compose [A] = A
    ∧ (∀ step : GStep, (Collection.compose [A]).find step = A.find step)
    ∧ (∀ l : List (Collection H),
        Collection.compose l = l.foldl Collection.merge Collection.new) := by
  have h2 : Collection.compose [A] = A := by
    show Collection.new.merge A = A
    unfold Collection.merge Collection.new
    have hg := extendB_of_wf_append A.givenB [] hwf.1
    have hw := extendB_of_wf_append A.whenB [] hwf.2.1
    have ht := extendB_of_wf_append A.thenB [] hwf.2.2
    rw [List.nil_append] at hg hw ht
    rw [hg, hw, ht]
  exact ⟨rfl, h2, fun step => by rw [h2], fun l => rfl⟩

/-- A two-entry registry used to witness `compose [A] = A`. -/
def w6C : Collection Nat :=
  (Collection.new.given none cex1P 1).when none ⟨"x".data, .char 'x'⟩ 2

/-- C6 (witness): composing the singleton list of the concrete registry
`w6C` yields `w6C` itself. -/
theorem compose_singleton_witness : Collection.compose [w6C] = w6C :=
  (compose_empty_singleton_fold w6C (by decide)).2.1

/-- C10: registering a step through `given`, `when` or `then` under a
(pattern text, location) key already present in the corresponding bucket
replaces the stored handler with the new one, leaves the bucket's size
unchanged, and (being a total function) never fails or reports the
collision — also within a single chained builder. -/
theorem builder_insert_replaces {H : Type} (c : Collection H) (p : Pattern)
    (loc : Option Location) (h : H)
    (hg : hasKeyB c.givenB (p.text, loc) = true)
    (hw : hasKeyB c.whenB (p.text, loc) = true)
    (ht : hasKeyB c.thenB (p.text, loc) = true) :
    ((c.given loc p h).givenB.length = c.givenB.length
      ∧ lookupB (c.given loc p h).givenB (p.text, loc) = some h)
    ∧ ((c.when loc p h).whenB.length = c.whenB.length
      ∧ lookupB (c.when loc p h).whenB (p.text, loc) = some h)
    ∧ ((c.thn loc p h).thenB.length = c.thenB.length
      ∧ lookupB (c.thn loc p h).thenB (p.text, loc) = some h) :=
  ⟨⟨length_insertE_of_hasKey _ _ _ _ hg, lookupB_insertE_self _ _ _ _⟩,
    ⟨length_insertE_of_hasKey _ _ _ _ hw, lookupB_insertE_self _ _ _ _⟩,
    ⟨length_insertE_of_hasKey _ _ _ _ ht, lookupB_insertE_self _ _ _ _⟩⟩

/-- The pattern `dup` used in the chained-builder witness. -/
def w10P : Pattern := ⟨"dup".data, str2re "dup".data⟩

/-- A chained builder registering `dup` under all three kinds (handler 1
each). -/
def w10C : Collection Nat :=
  ((Collection.new.given none w10P 1).when none w10P 1).thn none w10P 1

/-- C10 (witness): chaining a second registration of `dup` (handler 2) onto
`w10C` replaces the stored handler in each bucket and keeps each bucket at
size one. -/
theorem builder_insert_replaces_witness :
    ((w10C.given none w10P 2).givenB.length = w10C.givenB.length
      ∧ lookupB (w10C.given none w10P 2).givenB (w10P.text, none) = some 2)
    ∧ ((w10C.when none w10P 2).whenB.length = w10C.whenB.length
      ∧ lookupB (w10C.when none w10P 2).whenB (w10P.text, none) = some 2)
    ∧ ((w10C.thn none w10P 2).thenB.length = w10C.thenB.length
      ∧ lookupB (w10C.thn none w10P 2).thenB (w10P.text, none) = some 2) :=
  builder_insert_replaces w10C w10P none 2 (by decide) (by decide) (by decide)

/-- The compiled form of the pattern `service "([^"]+)" is healthy`: the
literal prefix, one capture group holding `[^"]+`, and the literal
suffix. -/
def serviceRE : RE :=
  .seq (str2re "service \"".data)
    (.seq (.group (.plus (.cls true [('"', '"')])))
      (str2re "\" is healthy".data))

/-- The stored pattern `service "([^"]+)" is healthy` with its source
text. -/
def w9P : Pattern := ⟨"service \"([^\"]+)\" is healthy".data, serviceRE⟩

/-- A registry holding `w9P` as its only Given pattern (handler 9). -/
def w9C : Collection Nat := Collection.new.given none w9P 9

/-- A Given step whose text is `service "vault" is healthy`. -/
def w9Step : GStep :=
  ⟨"Given ".data, .given, "service \"vault\" is healthy".data⟩

/-- C9: on a registry holding the pattern `service "([^"]+)" is healthy`
for the step's kind, `find` on the step text `service "vault" is healthy`
returns the handler with capture spans (0, 26) and (9, 14), and the matches
list's captured substrings are exactly the full text followed by `vault`. -/
theorem find_service_vault_concrete :
    w9C.find w9Step = .ok (some (9, [some (0, 26), some (9, 14)], none,
      { step := w9Step
        matchesL := [(none, "service \"vault\" is healthy".data),
          (none, "vault".data)] }))
    ∧ (match w9C.find w9Step with
        | .ok (some (_, _, _, ctx)) => ctx.matchesL.map Prod.snd
        | _ => []) =
      ["service \"vault\" is healthy".data, "vault".data] := by
  exact ⟨by decide, by decide⟩
